import Mathlib

/-!
Verification development for `stock_report.py`: a Taiwan-stock portfolio
report generator.  The core pipeline (position ledger with weighted-average
cost, TWSE month-window price resolution with a previous-month retry, TPEx
snapshot fallback, per-position valuation and portfolio totals) is embedded
shallowly below.  Network transport, CSV persistence, news enrichment and
document rendering are thin I/O collaborators: the network fetches are
modelled as oracle parameters (a function giving the parsed payload a fetch
would have produced), and persistence/rendering are dropped.  Python floats
are modelled as rationals (ℚ); Python `None` as `Option.none`.
-/

/-- A calendar date, as produced by `parse_roc_date` (`datetime.date`). -/
structure Date where
  year : Nat
  month : Nat
  day : Nat
deriving DecidableEq

/-- Comparison of `datetime.date` values: lexicographic on (year, month, day). -/
def Date.le (a b : Date) : Bool :=
  if a.year ≠ b.year then decide (a.year < b.year)
  else if a.month ≠ b.month then decide (a.month < b.month)
  else decide (a.day ≤ b.day)

/-- Python `max` over dates, folded pairwise: keep the current maximum unless
the next element is strictly greater. -/
def Date.maxD (m d : Date) : Date :=
  if Date.le d m then m else d

/-- `(target_date.replace(day=1) - dt.timedelta(days=1)).replace(day=1)`:
the first day of the calendar month preceding the month of `d`
(`fetch_twse_latest`, line 123).  Valid `datetime.date` values have
`1 ≤ month ≤ 12`. -/
def prevMonthFirst (d : Date) : Date :=
  if d.month ≤ 1 then ⟨d.year - 1, 12, 1⟩ else ⟨d.year, d.month - 1, 1⟩

/-! ## `parse_float` (lines 86-93)

Strip, drop thousands separators, map the placeholder strings to `None`,
otherwise parse with Python `float`.  The feeds only ever carry plain
(optionally signed) decimal notation, which is what the `float` call is
modelled as here; any other shape parses to `none`, matching the
`except ValueError` branch. -/

/-- Value of a digit string, most significant first. -/
def digitsVal (cs : List Char) : Nat :=
  cs.foldl (fun n c => n * 10 + (c.toNat - 48)) 0

/-- `float` on an unsigned decimal literal: digits with at most one dot,
at least one digit overall. -/
def parseDecimalCore (cs : List Char) : Option ℚ :=
  match cs.splitOn '.' with
  | [ip] =>
      if ip ≠ [] && ip.all Char.isDigit then some (digitsVal ip) else none
  | [ip, fp] =>
      if (ip ≠ [] || fp ≠ []) && ip.all Char.isDigit && fp.all Char.isDigit then
        some ((digitsVal ip : ℚ) + (digitsVal fp : ℚ) / ((10 : ℚ) ^ fp.length))
      else none
  | _ => none

/-- `float` on an optionally signed decimal literal. -/
def parseSigned (cs : List Char) : Option ℚ :=
  match cs with
  | '-' :: rest => (parseDecimalCore rest).map (fun q => -q)
  | '+' :: rest => parseDecimalCore rest
  | _ => parseDecimalCore cs

/-- Python `str.strip()`: drop leading and trailing whitespace.  Written
over the character list so that it evaluates by kernel reduction. -/
def pyStrip (s : String) : String :=
  ⟨((s.data.dropWhile Char.isWhitespace).reverse.dropWhile Char.isWhitespace).reverse⟩

/-- `parse_float(s)`: strip whitespace, remove commas (`.replace(",", "")`),
treat `--`, `-` and the empty string as absent, otherwise parse as a float
(absent on failure). -/
def parse_float (s : String) : Option ℚ :=
  let t := (pyStrip s).data.filter (fun c => c != ',')
  if t = ['-', '-'] || t = ['-'] || t = [] then none
  else parseSigned t

/-! ## Position ledger (`add_holding`, lines 53-68)

A holdings row as read by `read_holdings`.  `add_holding` scans the rows in
order for the first row whose code matches the (stripped) incoming code,
updates it in place, and appends a fresh row when no code matches.  The
CSV load/save around the mutation is persistence, handled by collaborators;
the list transformation below is the whole decision logic. -/

/-- One holdings record: `{code, lots, avg_cost}`. -/
structure HRow where
  code : String
  lots : ℚ
  avg_cost : ℚ
deriving DecidableEq

/-- The in-place update of a matched row (lines 58-64): blend the average
cost when the new total is positive, otherwise re-base to the incoming
price. -/
def updateRow (r : HRow) (lots avg_cost : ℚ) : HRow :=
  let total_lots := r.lots + lots
  if total_lots ≤ 0 then ⟨r.code, total_lots, avg_cost⟩
  else ⟨r.code, total_lots, (r.lots * r.avg_cost + lots * avg_cost) / total_lots⟩

/-- The `for r in rows` scan of `add_holding`: first matching row is
updated, later rows untouched, append when no row matches. -/
def addGo (code : String) (lots avg_cost : ℚ) : List HRow → List HRow
  | [] => [⟨code, lots, avg_cost⟩]
  | r :: rs =>
      if r.code = code then updateRow r lots avg_cost :: rs
      else r :: addGo code lots avg_cost rs

/-- `add_holding(code, lots, avg_cost)` on an in-memory ledger. -/
def add_holding (rows : List HRow) (code : String) (lots avg_cost : ℚ) : List HRow :=
  addGo (pyStrip code) lots avg_cost rows

/-! ## Primary resolver — TWSE (`fetch_twse_month` / `fetch_twse_latest`, lines 96-133)

`fetch_twse_month` performs the network fetch and JSON/field parsing; its
parsed result (a display name and one row per trading day, each with an
optional date, close and change) is modelled as an oracle
`fm : String → Date → Option MonthData`, `none` standing for a non-`OK`
payload.  `fetch_twse_latest` is embedded exactly: filter to rows dated at
or before the target, retry once against the first day of the previous
month when the filter (not the fetch) leaves nothing, sort by date and take
the last row (plus the second-to-last as `prev`). -/

/-- One parsed row of the TWSE month table: date, close, change, each of
which may be absent (placeholder or malformed field). -/
structure Row where
  date : Option Date
  close : Option ℚ
  change : Option ℚ
deriving DecidableEq

/-- Parsed result of `fetch_twse_month`: optional display name and rows. -/
structure MonthData where
  name : Option String
  rows : List Row
deriving DecidableEq

/-- Result of `fetch_twse_latest` (the `source` field is the constant
`"TWSE"` and is carried by the aggregator's `Source` tag instead). -/
structure TwseLatest where
  name : Option String
  latest : Row
  prev : Option Row
deriving DecidableEq

/-- `r["date"] and r["date"] <= target_date` (line 121/127): a date object
is always truthy, `None` is falsy. -/
def usableRows (rows : List Row) (target : Date) : List Row :=
  rows.filter (fun r =>
    match r.date with
    | some d => Date.le d target
    | none => false)

/-- `rows.sort(key=lambda x: x["date"])` compares dates; every filtered row
has a present date, so the default below is never consulted. -/
def rowLe (a b : Row) : Bool :=
  Date.le (a.date.getD ⟨0, 0, 0⟩) (b.date.getD ⟨0, 0, 0⟩)

/-- Lines 130-133: sort ascending by date, `latest = rows[-1]`,
`prev = rows[-2] if len(rows) >= 2 else None`.  The empty case realises the
`if not rows: return None` guard of line 128. -/
def pickLatest (name : Option String) (rows : List Row) : Option TwseLatest :=
  match (rows.mergeSort rowLe).reverse with
  | [] => none
  | a :: rest => some ⟨name, a, rest.head?⟩

/-- `fetch_twse_latest(stock_no, target_date)` over the month oracle `fm`. -/
def fetch_twse_latest (fm : String → Date → Option MonthData)
    (stock_no : String) (target : Date) : Option TwseLatest :=
  match fm stock_no target with
  | none => none
  | some month =>
      if month.rows = [] then none
      else
        let rows := usableRows month.rows target
        if rows = [] then
          match fm stock_no (prevMonthFirst target) with
          | none => none
          | some month2 =>
              if month2.rows = [] then none
              else pickLatest month2.name (usableRows month2.rows target)
        else pickLatest month.name rows

/-! ## Secondary resolver — TPEx (`fetch_tpex_latest_all` / `get_tpex_row` /
`parse_tpex_price`, lines 136-172)

`fetch_tpex_latest_all` fetches a CSV snapshot once per run; its parsed
result (header plus non-empty data rows, `hmap` mapping each header label
to its index, later duplicates overwriting earlier ones) is taken as given.
The `-1` default of `hmap.get(label, -1)` combined with Python negative
indexing is modelled by `pyIdx`. -/

/-- The once-per-run TPEx snapshot: header row and data rows. -/
structure TpexData where
  header : List String
  rows : List (List String)
deriving DecidableEq

/-- `{name: i for i, name in enumerate(header)}.get(label, -1)`: the index
of the last occurrence of `label` in the header, `-1` when absent. -/
def hmapGet (header : List String) (label : String) : Int :=
  match header.enum.foldl
      (fun acc p => if p.2 = label then some p.1 else acc) (none : Option Nat) with
  | some i => (i : Int)
  | none => -1

/-- Python list indexing `r[i]` with negative-index wraparound; `none`
stands for an out-of-range access. -/
def pyIdx (r : List String) (i : Int) : Option String :=
  let j := if i < 0 then (r.length : Int) + i else i
  if j < 0 then none else r.get? j.toNat

/-- `get_tpex_row(data, code)` (lines 158-165): linear scan for the first
row whose code column equals `code`; `None` when the snapshot is absent or
no row matches.  When the code label is missing from the header the scan
compares column `-1`, i.e. each row's last element. -/
def get_tpex_row (data : Option TpexData) (code : String) : Option (List String) :=
  match data with
  | none => none
  | some d => d.rows.find? (fun r => pyIdx r (hmapGet d.header "代號") == some code)

/-- `parse_float(row[i])`: read a column and parse it as a price field. -/
def parseAt (row : List String) (i : Int) : Option ℚ :=
  match pyIdx row i with
  | some s => parse_float s
  | none => none

/-- `parse_tpex_price(row, hmap)` (lines 168-172): `(close, change, name)`.
Only the name column guards against a missing label; close and change fall
back to column `-1`, the row's last element. -/
def parse_tpex_price (row : List String) (header : List String) :
    Option ℚ × Option ℚ × Option String :=
  let close := parseAt row (hmapGet header "收盤")
  let change := parseAt row (hmapGet header "漲跌")
  let name := if hmapGet header "名稱" ≥ 0 then pyIdx row (hmapGet header "名稱") else none
  (close, change, name)

/-! ## Portfolio aggregator (`generate_report`, lines 212-301)

The per-holding loop: primary resolution first, TPEx fallback, a degraded
`No price data` item when neither yields a close, valuation and totals
accumulation otherwise.  News enrichment and rendering are external
decoration and are dropped.  `consultedSecondary` records whether control
reached the `get_tpex_row` call — the `else` branch of lines 249-253. -/

/-- The price source tag (`"TWSE"` / `"TPEx"`; `none` renders as `-`). -/
inductive Source where
  | TWSE
  | TPEx
deriving DecidableEq

/-- Outcome of the per-symbol resolution, lines 238-253. -/
structure Resolved where
  source : Option Source
  name : Option String
  close : Option ℚ
  change : Option ℚ
  price_date : Option Date
  consultedSecondary : Bool
deriving DecidableEq

/-- The `else` branch, lines 249-253: consult the snapshot. -/
def resolveSecondary (tp : Option TpexData) (code : String) : Resolved :=
  match tp, get_tpex_row tp code with
  | some d, some r =>
      let pcn := parse_tpex_price r d.header
      ⟨some Source.TPEx, pcn.2.2, pcn.1, pcn.2.1, none, true⟩
  | _, _ => ⟨none, none, none, none, none, true⟩

/-- Lines 237-253: use the TWSE result when it carries a close
(`twse and twse.get("latest") and twse["latest"].get("close") is not None`),
otherwise fall through to the snapshot. -/
def resolveQuote (fm : String → Date → Option MonthData) (tp : Option TpexData)
    (target : Date) (code : String) : Resolved :=
  match fetch_twse_latest fm code target with
  | some t =>
      match t.latest.close with
      | some c => ⟨some Source.TWSE, t.name, some c, t.latest.change, t.latest.date, false⟩
      | none => resolveSecondary tp code
  | none => resolveSecondary tp code

/-- One output row of the report: either the degraded
`{"error": "No price data"}` shape of lines 256-261 or the full shape of
lines 282-297 (news omitted). -/
inductive Item where
  | noPrice (code : String) (name : Option String) (source : Option Source)
  | ok (code : String) (name : Option String) (source : Option Source)
      (date : Option Date) (close : ℚ) (change : Option ℚ) (day_pct : Option ℚ)
      (lots avg_cost market_value cost pnl day_pnl : ℚ)
deriving DecidableEq

/-- Lines 231-297 for a single holding: resolve, guard the day-change
percentage (`prev = close - change` must be strictly positive), and value
the position at `shares = lots * 1000`.  `(change or 0.0)` agrees with
`Option.getD 0` on ℚ. -/
def processHolding (fm : String → Date → Option MonthData) (tp : Option TpexData)
    (target : Date) (h : HRow) : Item :=
  let shares := h.lots * 1000
  let r := resolveQuote fm tp target h.code
  match r.close with
  | none => .noPrice h.code r.name r.source
  | some close =>
      let day_pct :=
        match r.change with
        | some ch => if close - ch > 0 then some (ch / (close - ch) * 100) else none
        | none => none
      .ok h.code r.name r.source r.price_date close r.change day_pct h.lots h.avg_cost
        (close * shares) (h.avg_cost * shares) ((close - h.avg_cost) * shares)
        ((r.change.getD 0) * shares)

/-- The running totals dict of lines 224-229. -/
structure Totals where
  market_value : ℚ
  cost : ℚ
  pnl : ℚ
  day_pnl : ℚ
deriving DecidableEq

/-- Lines 275-278: only a priced item adds to the totals (the degraded item
hits `continue` at line 262 first). -/
def addTotals (t : Totals) (i : Item) : Totals :=
  match i with
  | .noPrice .. => t
  | .ok _ _ _ _ _ _ _ _ _ mv cost pnl day_pnl =>
      ⟨t.market_value + mv, t.cost + cost, t.pnl + pnl, t.day_pnl + day_pnl⟩

/-- One iteration of the `for h in holdings` loop: append the item, then
add it to the totals when it is priced. -/
def stepReport (fm : String → Date → Option MonthData) (tp : Option TpexData)
    (target : Date) (acc : List Item × Totals) (h : HRow) : List Item × Totals :=
  let item := processHolding fm tp target h
  (acc.1 ++ [item], addTotals acc.2 item)

/-- The whole loop of lines 231-297: items in holdings order plus totals. -/
def generateReport (fm : String → Date → Option MonthData) (tp : Option TpexData)
    (target : Date) (holdings : List HRow) : List Item × Totals :=
  holdings.foldl (stepReport fm tp target) ([], ⟨0, 0, 0, 0⟩)

/-- The date an item contributes to the report-date computation
(`i.get("date")`, line 300): present only on a priced item whose quote
carried a date (TPEx quotes carry none). -/
def Item.dateF : Item → Option Date
  | .noPrice .. => none
  | .ok _ _ _ date _ _ _ _ _ _ _ _ _ => date

/-- Lines 299-301: `report_date = max(dates) if dates else target_date`. -/
def reportDate (items : List Item) (target : Date) : Date :=
  match items.filterMap Item.dateF with
  | [] => target
  | d :: ds => ds.foldl Date.maxD d

/-- Market value of a priced item (absent on the degraded item). -/
def Item.mvF : Item → Option ℚ
  | .noPrice .. => none
  | .ok _ _ _ _ _ _ _ _ _ mv _ _ _ => some mv

/-- Cost basis of a priced item. -/
def Item.costF : Item → Option ℚ
  | .noPrice .. => none
  | .ok _ _ _ _ _ _ _ _ _ _ cost _ _ => some cost

/-- Unrealized P&L of a priced item. -/
def Item.pnlF : Item → Option ℚ
  | .noPrice .. => none
  | .ok _ _ _ _ _ _ _ _ _ _ _ pnl _ => some pnl

/-- Day P&L of a priced item. -/
def Item.dayPnlF : Item → Option ℚ
  | .noPrice .. => none
  | .ok _ _ _ _ _ _ _ _ _ _ _ _ day_pnl => some day_pnl

/-- Day-change percentage of a priced item. -/
def Item.dayPctF : Item → Option ℚ
  | .noPrice .. => none
  | .ok _ _ _ _ _ _ day_pct _ _ _ _ _ _ => day_pct

/-- The reported change of a priced item. -/
def Item.changeF : Item → Option ℚ
  | .noPrice .. => none
  | .ok _ _ _ _ _ change _ _ _ _ _ _ _ => change

/-- Whether the item is priced (contributes to totals). -/
def Item.isOk : Item → Bool
  | .noPrice .. => false
  | .ok .. => true

/-! ## Concrete fixtures

Small concrete oracles and snapshots used to instantiate the theorems
below on closed inputs. -/

/-- A concrete target date, 2024-03-15. -/
def tW : Date := ⟨2024, 3, 15⟩

/-- A trading day just before `tW`. -/
def dW : Date := ⟨2024, 3, 14⟩

/-- A TWSE row: traded on `dW`, close 600, change +5. -/
def rowW : Row := ⟨some dW, some 600, some 5⟩

/-- A month oracle that serves symbol 2330 for the month of `tW`. -/
def fmPrim : String → Date → Option MonthData :=
  fun code d => if code = "2330" ∧ d = tW then some ⟨some "TestCo", [rowW]⟩ else none

/-- A TPEx snapshot holding symbol 4444 at close 50, change +1.5. -/
def tpW : TpexData := ⟨["代號", "名稱", "收盤", "漲跌"], [["4444", "OTCCo", "50", "1.5"]]⟩

/-- A TWSE row whose change field is absent (placeholder). -/
def rowNC : Row := ⟨some dW, some 100, none⟩

/-- A month oracle serving symbol 9999 with a row lacking a change. -/
def fmNoChg : String → Date → Option MonthData :=
  fun code d => if code = "9999" ∧ d = tW then some ⟨none, [rowNC]⟩ else none

/-- A TWSE row whose change is reported as exactly zero. -/
def rowZC : Row := ⟨some dW, some 100, some 0⟩

/-- A month oracle serving symbol 8888 with a zero-change row. -/
def fmZeroChg : String → Date → Option MonthData :=
  fun code d => if code = "8888" ∧ d = tW then some ⟨none, [rowZC]⟩ else none

/-- A target on the 1st of a month, 2024-03-01. -/
def tMar1 : Date := ⟨2024, 3, 1⟩

/-- A prior-month (February) trading row before `tMar1`. -/
def rowFeb : Row := ⟨some ⟨2024, 2, 27⟩, some 80, some 1⟩

/-- A month oracle whose March dataset is empty while February has data:
the month-retry scenario of the spec. -/
def fmEmptyCur : String → Date → Option MonthData :=
  fun _ d =>
    if d = tMar1 then some ⟨none, []⟩
    else if d = prevMonthFirst tMar1 then some ⟨some "PrevCo", [rowFeb]⟩
    else none

/-- A March row dated after `tMar1` (posted for a later day). -/
def rowMar20 : Row := ⟨some ⟨2024, 3, 20⟩, some 81, some 1⟩

/-- A month oracle whose March dataset is non-empty but holds only rows
after the target, while February has a usable row: the retry that the code
does perform. -/
def fmLateCur : String → Date → Option MonthData :=
  fun _ d =>
    if d = tMar1 then some ⟨some "CurCo", [rowMar20]⟩
    else if d = prevMonthFirst tMar1 then some ⟨some "PrevCo", [rowFeb]⟩
    else none

/-! ## Order and sorting lemmas -/

theorem dateLe_refl (a : Date) : Date.le a a = true := by
  simp [Date.le]

theorem dateLe_total (a b : Date) : (Date.le a b || Date.le b a) = true := by
  simp only [Date.le, Bool.or_eq_true]
  split_ifs <;> simp_all <;> omega

theorem dateLe_trans (a b c : Date) (h1 : Date.le a b = true)
    (h2 : Date.le b c = true) : Date.le a c = true := by
  simp only [Date.le] at h1 h2 ⊢
  split_ifs at h1 h2 ⊢ <;> simp_all <;> omega

theorem rowLe_refl (a : Row) : rowLe a a = true := dateLe_refl _

theorem rowLe_total (a b : Row) : (rowLe a b || rowLe b a) = true := dateLe_total _ _

theorem rowLe_trans (a b c : Row) (h1 : rowLe a b = true) (h2 : rowLe b c = true) :
    rowLe a c = true := dateLe_trans _ _ _ h1 h2

theorem le_maxD_left (d y : Date) : Date.le d (Date.maxD d y) = true := by
  unfold Date.maxD
  split
  · exact dateLe_refl d
  · rename_i hn
    rcases Bool.or_eq_true _ _ |>.mp (dateLe_total d y) with h | h
    · exact h
    · exact absurd h hn

theorem le_maxD_right (d y : Date) : Date.le y (Date.maxD d y) = true := by
  unfold Date.maxD
  split
  · assumption
  · exact dateLe_refl y

theorem maxD_mem (d y : Date) : Date.maxD d y = d ∨ Date.maxD d y = y := by
  unfold Date.maxD
  split
  · exact Or.inl rfl
  · exact Or.inr rfl

theorem le_foldl_maxD (ds : List Date) (d : Date) :
    Date.le d (ds.foldl Date.maxD d) = true := by
  induction ds generalizing d with
  | nil => exact dateLe_refl d
  | cons y ys ih =>
      simp only [List.foldl_cons]
      exact dateLe_trans _ _ _ (le_maxD_left d y) (ih (Date.maxD d y))

theorem foldl_maxD_mem (ds : List Date) (d : Date) :
    ds.foldl Date.maxD d ∈ d :: ds := by
  induction ds generalizing d with
  | nil => simp
  | cons y ys ih =>
      simp only [List.foldl_cons]
      rcases List.mem_cons.mp (ih (Date.maxD d y)) with h | h
      · rcases maxD_mem d y with e | e
        · rw [h, e]; exact List.mem_cons_self _ _
        · rw [h, e]; exact List.mem_cons_of_mem _ (List.mem_cons_self _ _)
      · exact List.mem_cons_of_mem _ (List.mem_cons_of_mem _ h)

theorem foldl_maxD_ub (ds : List Date) (d : Date) :
    ∀ x ∈ d :: ds, Date.le x (ds.foldl Date.maxD d) = true := by
  induction ds generalizing d with
  | nil =>
      intro x hx
      rw [List.mem_singleton.mp hx]
      exact dateLe_refl d
  | cons y ys ih =>
      intro x hx
      simp only [List.foldl_cons]
      rcases List.mem_cons.mp hx with e | hx2
      · rw [e]
        exact dateLe_trans _ _ _ (le_maxD_left d y) (le_foldl_maxD ys (Date.maxD d y))
      · rcases List.mem_cons.mp hx2 with e | hx3
        · rw [e]
          exact dateLe_trans _ _ _ (le_maxD_right d y) (le_foldl_maxD ys (Date.maxD d y))
        · exact ih (Date.maxD d y) x (List.mem_cons_of_mem _ hx3)

/-- The sorted pick of lines 130-133: on a non-empty row list, `pickLatest`
returns a row of the list whose date is maximal among them. -/
theorem pickLatest_max (name : Option String) (rows : List Row) (h : rows ≠ []) :
    ∃ t, pickLatest name rows = some t ∧ t.name = name ∧ t.latest ∈ rows ∧
      ∀ r ∈ rows, rowLe r t.latest = true := by
  have hperm := List.mergeSort_perm rows rowLe
  have hsort := @List.sorted_mergeSort Row rowLe rowLe_trans rowLe_total rows
  have hne : rows.mergeSort rowLe ≠ [] := by
    intro e
    rw [e] at hperm
    exact h hperm.symm.eq_nil
  obtain ⟨a, rest, hrev⟩ : ∃ a rest, (rows.mergeSort rowLe).reverse = a :: rest := by
    cases hr : (rows.mergeSort rowLe).reverse with
    | nil => exact absurd (List.reverse_eq_nil_iff.mp hr) hne
    | cons a rest => exact ⟨a, rest, rfl⟩
  refine ⟨⟨name, a, rest.head?⟩, ?_, rfl, ?_, ?_⟩
  · unfold pickLatest
    rw [hrev]
  · have ha : a ∈ (rows.mergeSort rowLe).reverse := by
      rw [hrev]; exact List.mem_cons_self _ _
    exact hperm.mem_iff.mp (List.mem_reverse.mp ha)
  · intro r hr
    have hrs : r ∈ rows.mergeSort rowLe := hperm.mem_iff.mpr hr
    have hrrev : r ∈ (rows.mergeSort rowLe).reverse := List.mem_reverse.mpr hrs
    rw [hrev] at hrrev
    rcases List.mem_cons.mp hrrev with e | hmem
    · rw [e]; exact rowLe_refl a
    · have hpair : ((rows.mergeSort rowLe).reverse).Pairwise
          (fun x y => rowLe y x = true) := List.pairwise_reverse.mpr hsort
      rw [hrev] at hpair
      exact (List.pairwise_cons.mp hpair).1 r hmem

/-! ## Theorems: ledger claims -/

/-- C1: applying `(delta, price)` to an existing position `(q, ac)` with
`q + delta > 0` blends the average cost to
`(q·ac + delta·price)/(q + delta)` and sets the quantity to `q + delta`;
rows before the first match are untouched. -/
theorem add_holding_weighted_avg (pre post : List HRow) (code : String)
    (q ac d p : ℚ) (hpre : ∀ r ∈ pre, r.code ≠ pyStrip code) (hq : 0 < q + d) :
    add_holding (pre ++ ⟨pyStrip code, q, ac⟩ :: post) code d p
      = pre ++ ⟨pyStrip code, q + d, (q * ac + d * p) / (q + d)⟩ :: post := by
  unfold add_holding
  induction pre with
  | nil =>
      simp only [List.nil_append, addGo]
      rw [if_pos trivial]
      simp only [updateRow]
      rw [if_neg (not_le.mpr hq)]
  | cons r rs ih =>
      have hr : r.code ≠ pyStrip code := hpre r (List.mem_cons_self r rs)
      simp only [List.cons_append, addGo, if_neg hr, List.append_eq]
      rw [ih (fun x hx => hpre x (List.mem_cons_of_mem r hx))]

/-- C1 witness: the spec scenario — ledger `[{AAA, qty 2, cost 100}]`,
`apply(AAA, +1, 130)` yields quantity 3 at average cost 110. -/
theorem add_holding_weighted_avg_witness :
    add_holding [⟨"AAA", 2, 100⟩] "AAA" 1 130 = [⟨"AAA", 3, 110⟩] ∧ (0 : ℚ) < 2 + 1 := by
  have e : pyStrip "AAA" = "AAA" := by decide
  have h := add_holding_weighted_avg [] [] "AAA" 2 100 1 130
    (by intro r hr; cases hr) (by norm_num)
  rw [e] at h
  simp only [List.nil_append] at h
  refine ⟨h.trans ?_, by norm_num⟩
  norm_num

/-- C7: applying `(delta, price)` to an existing position `(q, ac)` with
`q + delta ≤ 0` sets the quantity to `q + delta` and re-bases the average
cost to exactly `price`, whatever `ac` was; no error is raised (the update
is a total function). -/
theorem add_holding_rebase (pre post : List HRow) (code : String)
    (q ac d p : ℚ) (hpre : ∀ r ∈ pre, r.code ≠ pyStrip code) (hq : q + d ≤ 0) :
    add_holding (pre ++ ⟨pyStrip code, q, ac⟩ :: post) code d p
      = pre ++ ⟨pyStrip code, q + d, p⟩ :: post := by
  unfold add_holding
  induction pre with
  | nil =>
      simp only [List.nil_append, addGo]
      rw [if_pos trivial]
      simp only [updateRow]
      rw [if_pos hq]
  | cons r rs ih =>
      have hr : r.code ≠ pyStrip code := hpre r (List.mem_cons_self r rs)
      simp only [List.cons_append, addGo, if_neg hr, List.append_eq]
      rw [ih (fun x hx => hpre x (List.mem_cons_of_mem r hx))]

/-- C7 witness: selling the full 2 lots at 77 drives the quantity to 0 and
re-bases the average cost to 77, regardless of the prior cost of 100. -/
theorem add_holding_rebase_witness :
    add_holding [⟨"BBB", 2, 100⟩] "BBB" (-2) 77 = [⟨"BBB", 0, 77⟩] ∧ (2 : ℚ) + -2 ≤ 0 := by
  have e : pyStrip "BBB" = "BBB" := by decide
  have h := add_holding_rebase [] [] "BBB" 2 100 (-2) 77
    (by intro r hr; cases hr) (by norm_num)
  rw [e] at h
  simp only [List.nil_append] at h
  refine ⟨h.trans ?_, by norm_num⟩
  norm_num

/-! ## Theorems: resolution and aggregation claims -/

/-- Evaluation of the primary resolver on the `fmPrim` fixture. -/
theorem fmPrim_fetch : fetch_twse_latest fmPrim "2330" tW = some ⟨some "TestCo", rowW, none⟩ := by
  simp [fetch_twse_latest, fmPrim, usableRows, rowW, tW, dW, Date.le, pickLatest]

/-- C2: when primary resolution yields a quote with a present close, the
aggregator uses that close with source TWSE, control never reaches the
secondary lookup (`consultedSecondary = false`), and the outcome is
independent of whatever the secondary snapshot holds. -/
theorem primary_short_circuit
    (fm : String → Date → Option MonthData) (tp tp2 : Option TpexData)
    (target : Date) (code : String) (t : TwseLatest) (c : ℚ)
    (h1 : fetch_twse_latest fm code target = some t)
    (h2 : t.latest.close = some c) :
    resolveQuote fm tp target code
      = ⟨some Source.TWSE, t.name, some c, t.latest.change, t.latest.date, false⟩ ∧
    resolveQuote fm tp target code = resolveQuote fm tp2 target code := by
  constructor
  · simp only [resolveQuote, h1, h2]
  · simp only [resolveQuote, h1, h2]

/-- C2 witness: with the `fmPrim` oracle, symbol 2330 resolves to close 600
from TWSE, and swapping the secondary snapshot (present vs. absent) does
not change the result. -/
theorem primary_short_circuit_witness :
    resolveQuote fmPrim (some tpW) tW "2330"
      = ⟨some Source.TWSE, some "TestCo", some 600, some 5, some dW, false⟩ ∧
    resolveQuote fmPrim (some tpW) tW "2330" = resolveQuote fmPrim none tW "2330" := by
  have h := primary_short_circuit fmPrim (some tpW) none tW "2330"
    ⟨some "TestCo", rowW, none⟩ 600 fmPrim_fetch rfl
  exact ⟨h.1, h.2⟩

/-- C5: every priced report row satisfies the P&L identity
`pnl = market_value - cost` exactly, both sides valued at
`shares = lots × 1000`. -/
theorem pnl_identity
    (fm : String → Date → Option MonthData) (tp : Option TpexData)
    (target : Date) (h : HRow)
    (code : String) (name : Option String) (source : Option Source)
    (date : Option Date) (close : ℚ) (change day_pct : Option ℚ)
    (lots avg_cost mv cost pnl day_pnl : ℚ)
    (he : processHolding fm tp target h
      = Item.ok code name source date close change day_pct lots avg_cost mv cost pnl day_pnl) :
    pnl = mv - cost := by
  simp only [processHolding] at he
  cases hc : (resolveQuote fm tp target h.code).close with
  | none => rw [hc] at he; simp at he
  | some c =>
      rw [hc] at he
      simp only [Item.ok.injEq] at he
      obtain ⟨-, -, -, -, e5, -, -, e8, e9, e10, e11, e12, -⟩ := he
      rw [← e10, ← e11, ← e12]
      ring

/-- C5 witness: the 2330 position (2 lots at 500, close 600) reports
mv 1200000, cost 1000000, pnl 200000, and the identity holds there. -/
theorem pnl_identity_witness :
    processHolding fmPrim (some tpW) tW ⟨"2330", 2, 500⟩
      = Item.ok "2330" (some "TestCo") (some Source.TWSE) (some dW) 600 (some 5)
          (some (5 / 595 * 100)) 2 500 1200000 1000000 200000 10000 ∧
    (200000 : ℚ) = 1200000 - 1000000 := by
  have he : processHolding fmPrim (some tpW) tW ⟨"2330", 2, 500⟩
      = Item.ok "2330" (some "TestCo") (some Source.TWSE) (some dW) 600 (some 5)
          (some (5 / 595 * 100)) 2 500 1200000 1000000 200000 10000 := by
    have hr : resolveQuote fmPrim (some tpW) tW "2330"
        = ⟨some Source.TWSE, some "TestCo", some 600, some 5, some dW, false⟩ := by
      simp only [resolveQuote, fmPrim_fetch, rowW]
    simp only [processHolding, hr]
    norm_num
  exact ⟨he, pnl_identity fmPrim (some tpW) tW ⟨"2330", 2, 500⟩ _ _ _ _ _ _ _ _ _ _ _ _ _ he⟩

/-- C10: a position that resolves with a close but an absent change reports
`day_pnl = 0` (present, not absent) and an absent `day_change_pct`, and the
loop step adds that 0 into the running day-P&L total instead of skipping
the position. -/
theorem missing_change_zero_day_pnl
    (fm : String → Date → Option MonthData) (tp : Option TpexData)
    (target : Date) (h : HRow) (c : ℚ)
    (hc : (resolveQuote fm tp target h.code).close = some c)
    (hch : (resolveQuote fm tp target h.code).change = none) :
    processHolding fm tp target h
      = Item.ok h.code (resolveQuote fm tp target h.code).name
          (resolveQuote fm tp target h.code).source
          (resolveQuote fm tp target h.code).price_date c none none h.lots h.avg_cost
          (c * (h.lots * 1000)) (h.avg_cost * (h.lots * 1000))
          ((c - h.avg_cost) * (h.lots * 1000)) 0 ∧
    ∀ acc : List Item × Totals,
      (stepReport fm tp target acc h).2.day_pnl = acc.2.day_pnl + 0 ∧
      (stepReport fm tp target acc h).1 = acc.1 ++ [processHolding fm tp target h] := by
  have hitem : processHolding fm tp target h
      = Item.ok h.code (resolveQuote fm tp target h.code).name
          (resolveQuote fm tp target h.code).source
          (resolveQuote fm tp target h.code).price_date c none none h.lots h.avg_cost
          (c * (h.lots * 1000)) (h.avg_cost * (h.lots * 1000))
          ((c - h.avg_cost) * (h.lots * 1000)) 0 := by
    simp only [processHolding, hc, hch, Option.getD_none, zero_mul]
  refine ⟨hitem, fun acc => ⟨?_, rfl⟩⟩
  simp only [stepReport, hitem, addTotals]

/-- C10 witness: symbol 9999 (1 lot at 40, close 100, change absent) yields
`day_pnl = 0`, absent `day_change_pct`, and the step over the empty
accumulator records a day-P&L total of `0 + 0`. -/
theorem missing_change_zero_day_pnl_witness :
    processHolding fmNoChg none tW ⟨"9999", 1, 40⟩
      = Item.ok "9999" none (some Source.TWSE) (some dW) 100 none none 1 40
          100000 40000 60000 0 ∧
    (stepReport fmNoChg none tW ([], ⟨0, 0, 0, 0⟩) ⟨"9999", 1, 40⟩).2.day_pnl = 0 + 0 := by
  have hf : fetch_twse_latest fmNoChg "9999" tW = some ⟨none, rowNC, none⟩ := by
    simp [fetch_twse_latest, fmNoChg, usableRows, rowNC, tW, dW, Date.le, pickLatest]
  have hr : resolveQuote fmNoChg none tW "9999"
      = ⟨some Source.TWSE, none, some 100, none, some dW, false⟩ := by
    simp only [resolveQuote, hf, rowNC]
  have h := missing_change_zero_day_pnl fmNoChg none tW ⟨"9999", 1, 40⟩ 100
    (by rw [hr]) (by rw [hr])
  constructor
  · rw [h.1, hr]
    norm_num
  · exact (h.2 ([], ⟨0, 0, 0, 0⟩)).1

/-- The report loop produces one item per holding, in holdings order, and
its totals are the fold of `addTotals` over exactly those items. -/
theorem foldl_step_spec (fm : String → Date → Option MonthData) (tp : Option TpexData)
    (target : Date) (hs : List HRow) (acc : List Item × Totals) :
    hs.foldl (stepReport fm tp target) acc
      = (acc.1 ++ hs.map (processHolding fm tp target),
         (hs.map (processHolding fm tp target)).foldl addTotals acc.2) := by
  induction hs generalizing acc with
  | nil => simp
  | cons h hs2 ih =>
      simp only [List.foldl_cons, List.map_cons]
      rw [ih]
      simp [stepReport]

/-- Accumulated market value is the sum over the priced items. -/
theorem foldl_addTotals_mv (items : List Item) (t0 : Totals) :
    (items.foldl addTotals t0).market_value
      = t0.market_value + (items.filterMap Item.mvF).sum := by
  induction items generalizing t0 with
  | nil => simp
  | cons i is ih =>
      cases i with
      | noPrice c n s => simp [addTotals, Item.mvF, ih]
      | ok c n s d cl ch dp l ac mv cost pnl dpnl =>
          simp only [List.foldl_cons, addTotals, List.filterMap_cons, Item.mvF, List.sum_cons, ih]
          ring

/-- Accumulated cost basis is the sum over the priced items. -/
theorem foldl_addTotals_cost (items : List Item) (t0 : Totals) :
    (items.foldl addTotals t0).cost = t0.cost + (items.filterMap Item.costF).sum := by
  induction items generalizing t0 with
  | nil => simp
  | cons i is ih =>
      cases i with
      | noPrice c n s => simp [addTotals, Item.costF, ih]
      | ok c n s d cl ch dp l ac mv cost pnl dpnl =>
          simp only [List.foldl_cons, addTotals, List.filterMap_cons, Item.costF, List.sum_cons, ih]
          ring

/-- Accumulated unrealized P&L is the sum over the priced items. -/
theorem foldl_addTotals_pnl (items : List Item) (t0 : Totals) :
    (items.foldl addTotals t0).pnl = t0.pnl + (items.filterMap Item.pnlF).sum := by
  induction items generalizing t0 with
  | nil => simp
  | cons i is ih =>
      cases i with
      | noPrice c n s => simp [addTotals, Item.pnlF, ih]
      | ok c n s d cl ch dp l ac mv cost pnl dpnl =>
          simp only [List.foldl_cons, addTotals, List.filterMap_cons, Item.pnlF, List.sum_cons, ih]
          ring

/-- Accumulated day P&L is the sum over the priced items. -/
theorem foldl_addTotals_day_pnl (items : List Item) (t0 : Totals) :
    (items.foldl addTotals t0).day_pnl = t0.day_pnl + (items.filterMap Item.dayPnlF).sum := by
  induction items generalizing t0 with
  | nil => simp
  | cons i is ih =>
      cases i with
      | noPrice c n s => simp [addTotals, Item.dayPnlF, ih]
      | ok c n s d cl ch dp l ac mv cost pnl dpnl =>
          simp only [List.foldl_cons, addTotals, List.filterMap_cons, Item.dayPnlF,
            List.sum_cons, ih]
          ring

/-- C6: the report emits exactly one item per holding in ledger order; each
totals field is the additive sum of the corresponding field over exactly
the priced items (`filterMap` drops the degraded ones, so an unresolved
position contributes nothing rather than zero); and a position that
resolves from neither source still appears in the output, tagged
`noPrice`. -/
theorem totals_sum_resolved (fm : String → Date → Option MonthData) (tp : Option TpexData)
    (target : Date) (holdings : List HRow) :
    (generateReport fm tp target holdings).1 = holdings.map (processHolding fm tp target) ∧
    (generateReport fm tp target holdings).2.market_value
      = (((generateReport fm tp target holdings).1).filterMap Item.mvF).sum ∧
    (generateReport fm tp target holdings).2.cost
      = (((generateReport fm tp target holdings).1).filterMap Item.costF).sum ∧
    (generateReport fm tp target holdings).2.pnl
      = (((generateReport fm tp target holdings).1).filterMap Item.pnlF).sum ∧
    (generateReport fm tp target holdings).2.day_pnl
      = (((generateReport fm tp target holdings).1).filterMap Item.dayPnlF).sum ∧
    ∀ h ∈ holdings, (resolveQuote fm tp target h.code).close = none →
      Item.noPrice h.code (resolveQuote fm tp target h.code).name
        (resolveQuote fm tp target h.code).source ∈ (generateReport fm tp target holdings).1 := by
  have hrep := foldl_step_spec fm tp target holdings ([], ⟨0, 0, 0, 0⟩)
  have hitems : (generateReport fm tp target holdings).1
      = holdings.map (processHolding fm tp target) := by
    unfold generateReport
    rw [hrep]
    simp
  refine ⟨hitems, ?_, ?_, ?_, ?_, ?_⟩
  · unfold generateReport
    rw [hrep]
    simp [foldl_addTotals_mv]
  · unfold generateReport
    rw [hrep]
    simp [foldl_addTotals_cost]
  · unfold generateReport
    rw [hrep]
    simp [foldl_addTotals_pnl]
  · unfold generateReport
    rw [hrep]
    simp [foldl_addTotals_day_pnl]
  · intro h hmem hnone
    rw [hitems]
    have : processHolding fm tp target h
        = Item.noPrice h.code (resolveQuote fm tp target h.code).name
            (resolveQuote fm tp target h.code).source := by
      simp only [processHolding, hnone]
    rw [← this]
    exact List.mem_map_of_mem _ hmem

/-- C6 witness: in the three-symbol portfolio (2330 via TWSE, 4444 via
TPEx, 7777 unresolved), the unresolved position reports no close and still
appears in the output sequence as a `noPrice` item. -/
theorem totals_sum_resolved_witness :
    (resolveQuote fmPrim (some tpW) tW "7777").close = none ∧
    Item.noPrice "7777" none none
      ∈ (generateReport fmPrim (some tpW) tW
          [⟨"2330", 2, 500⟩, ⟨"4444", 1, 40⟩, ⟨"7777", 3, 10⟩]).1 := by
  have hnone : resolveQuote fmPrim (some tpW) tW "7777"
      = ⟨none, none, none, none, none, true⟩ := by decide
  have h := (totals_sum_resolved fmPrim (some tpW) tW
      [⟨"2330", 2, 500⟩, ⟨"4444", 1, 40⟩, ⟨"7777", 3, 10⟩]).2.2.2.2.2
      ⟨"7777", 3, 10⟩ (by simp) (by rw [hnone])
  refine ⟨by rw [hnone], ?_⟩
  simpa [hnone] using h

/-- C9: the report date is an upper bound of, and (when any exist) a member
of, the resolved trading dates of the run's items; when no item carries a
date it is the originally requested target date. -/
theorem report_date_spec (fm : String → Date → Option MonthData) (tp : Option TpexData)
    (target : Date) (holdings : List HRow) :
    (((generateReport fm tp target holdings).1).filterMap Item.dateF = [] →
      reportDate (generateReport fm tp target holdings).1 target = target) ∧
    (∀ d ∈ ((generateReport fm tp target holdings).1).filterMap Item.dateF,
      Date.le d (reportDate (generateReport fm tp target holdings).1 target) = true) ∧
    (((generateReport fm tp target holdings).1).filterMap Item.dateF ≠ [] →
      reportDate (generateReport fm tp target holdings).1 target
        ∈ ((generateReport fm tp target holdings).1).filterMap Item.dateF) := by
  cases hd : ((generateReport fm tp target holdings).1).filterMap Item.dateF with
  | nil =>
      refine ⟨fun _ => ?_, fun d hmem => absurd hmem (List.not_mem_nil d),
        fun he => absurd rfl he⟩
      unfold reportDate
      rw [hd]
  | cons d ds =>
      refine ⟨fun he => absurd he (by simp), fun x hx => ?_, fun _ => ?_⟩
      · unfold reportDate
        rw [hd]
        exact foldl_maxD_ub ds d x hx
      · unfold reportDate
        rw [hd]
        exact foldl_maxD_mem ds d

/-- Evaluation of the whole pipeline on the 2330 fixture position. -/
theorem processHolding_2330 :
    processHolding fmPrim (some tpW) tW ⟨"2330", 2, 500⟩
      = Item.ok "2330" (some "TestCo") (some Source.TWSE) (some dW) 600 (some 5)
          (some (5 / 595 * 100)) 2 500 1200000 1000000 200000 10000 := by
  have hr : resolveQuote fmPrim (some tpW) tW "2330"
      = ⟨some Source.TWSE, some "TestCo", some 600, some 5, some dW, false⟩ := by
    simp only [resolveQuote, fmPrim_fetch, rowW]
  simp only [processHolding, hr]
  norm_num

/-- C9 witness: with one resolved 2330 position the report date bounds its
trading date `dW` from above; with a single unresolved position the report
date falls back to the requested target `tW`. -/
theorem report_date_spec_witness :
    Date.le dW (reportDate (generateReport fmPrim (some tpW) tW [⟨"2330", 2, 500⟩]).1 tW)
      = true ∧
    reportDate (generateReport fmPrim none tW [⟨"7777", 1, 1⟩]).1 tW = tW := by
  have hitems : (generateReport fmPrim (some tpW) tW [⟨"2330", 2, 500⟩]).1
      = [Item.ok "2330" (some "TestCo") (some Source.TWSE) (some dW) 600 (some 5)
          (some (5 / 595 * 100)) 2 500 1200000 1000000 200000 10000] := by
    simp [generateReport, stepReport, processHolding_2330]
  have hmem : dW ∈ ((generateReport fmPrim (some tpW) tW [⟨"2330", 2, 500⟩]).1).filterMap
      Item.dateF := by
    rw [hitems]
    simp [Item.dateF]
  have h1 := (report_date_spec fmPrim (some tpW) tW [⟨"2330", 2, 500⟩]).2.1 dW hmem
  have hnone : resolveQuote fmPrim none tW "7777" = ⟨none, none, none, none, none, true⟩ := by
    simp [resolveQuote, fetch_twse_latest, fmPrim, resolveSecondary, get_tpex_row, tW]
  have hitems2 : (generateReport fmPrim none tW [⟨"7777", 1, 1⟩]).1
      = [Item.noPrice "7777" none none] := by
    simp [generateReport, stepReport, processHolding, hnone]
  have h2 := (report_date_spec fmPrim none tW [⟨"7777", 1, 1⟩]).1
    (by rw [hitems2]; simp [Item.dateF])
  exact ⟨h1, h2⟩

/-- C3 counterexample: with an empty current-month dataset and a non-empty
prior-month dataset whose row is usable (dated before the target),
`fetch_twse_latest` returns `None` — the guard of line 119 fires before
the previous-month retry of lines 122-127 is ever reached, so the claimed
retry-on-empty-dataset does not happen. -/
theorem month_retry_empty_counterexample :
    fmEmptyCur "5555" tMar1 = some ⟨none, []⟩ ∧
    fmEmptyCur "5555" (prevMonthFirst tMar1) = some ⟨some "PrevCo", [rowFeb]⟩ ∧
    usableRows [rowFeb] tMar1 = [rowFeb] ∧
    fetch_twse_latest fmEmptyCur "5555" tMar1 = none := by
  refine ⟨by decide, by decide, by decide, by decide⟩

/-- C3 as amended: the previous-month retry fires only when the
current-month fetch succeeds with a non-empty dataset none of whose rows is
dated at or before the target; a failed fetch or an empty current-month
dataset returns `None` with no retry.  When the retry fires and the prior
month has usable rows, the result is the prior month's date-maximal usable
row (with the prior month's name); when neither window yields a usable row
the result is `None`.  Resolution consults only the current-month and
previous-month windows. -/
theorem fetch_twse_latest_retry_behavior
    (fm : String → Date → Option MonthData) (s : String) (target : Date) :
    (fm s target = none → fetch_twse_latest fm s target = none) ∧
    (∀ m, fm s target = some m → m.rows = [] → fetch_twse_latest fm s target = none) ∧
    (∀ m m2, fm s target = some m → m.rows ≠ [] → usableRows m.rows target = [] →
      fm s (prevMonthFirst target) = some m2 → m2.rows ≠ [] →
      usableRows m2.rows target ≠ [] →
      ∃ t, fetch_twse_latest fm s target = some t ∧ t.name = m2.name ∧
        t.latest ∈ usableRows m2.rows target ∧
        ∀ r ∈ usableRows m2.rows target, rowLe r t.latest = true) ∧
    (∀ m, fm s target = some m → m.rows ≠ [] → usableRows m.rows target = [] →
      (fm s (prevMonthFirst target) = none ∨
        ∃ m2, fm s (prevMonthFirst target) = some m2 ∧
          (m2.rows = [] ∨ usableRows m2.rows target = [])) →
      fetch_twse_latest fm s target = none) ∧
    (∀ fm2 : String → Date → Option MonthData, fm2 s target = fm s target →
      fm2 s (prevMonthFirst target) = fm s (prevMonthFirst target) →
      fetch_twse_latest fm2 s target = fetch_twse_latest fm s target) := by
  refine ⟨?_, ?_, ?_, ?_, ?_⟩
  · intro h
    simp [fetch_twse_latest, h]
  · intro m hm hrows
    simp [fetch_twse_latest, hm, hrows]
  · intro m m2 hm hne hu hm2 hne2 hu2
    obtain ⟨t, hp, hn, hmem, hmax⟩ := pickLatest_max m2.name (usableRows m2.rows target) hu2
    refine ⟨t, ?_, hn, hmem, hmax⟩
    simp only [fetch_twse_latest, hm]
    rw [if_neg hne, if_pos hu]
    simp only [hm2]
    rw [if_neg hne2]
    exact hp
  · intro m hm hne hu hdisj
    simp only [fetch_twse_latest, hm]
    rw [if_neg hne, if_pos hu]
    rcases hdisj with h0 | ⟨m2, hm2, hcase⟩
    · simp only [h0]
    · simp only [hm2]
      rcases hcase with h1 | h1
      · rw [if_pos h1]
      · by_cases hr : m2.rows = []
        · rw [if_pos hr]
        · rw [if_neg hr, h1]
          simp [pickLatest]
  · intro fm2 h1 h2
    simp only [fetch_twse_latest, h1, h2]

/-- C3 witness: the March dataset holds only a row after the target, so the
retry fires and resolution returns February's usable row. -/
theorem fetch_twse_latest_retry_behavior_witness :
    usableRows [rowMar20] tMar1 = [] ∧
    usableRows [rowFeb] tMar1 = [rowFeb] ∧
    ∃ t, fetch_twse_latest fmLateCur "5555" tMar1 = some t ∧ t.name = some "PrevCo" ∧
      t.latest ∈ usableRows [rowFeb] tMar1 ∧
      ∀ r ∈ usableRows [rowFeb] tMar1, rowLe r t.latest = true := by
  have h := (fetch_twse_latest_retry_behavior fmLateCur "5555" tMar1).2.2.1
    ⟨some "CurCo", [rowMar20]⟩ ⟨some "PrevCo", [rowFeb]⟩
    (by decide) (by decide) (by decide) (by decide) (by decide) (by decide)
  exact ⟨by decide, by decide, by simpa using h⟩

/-- C4 counterexample: a symbol whose close is 100 and whose reported
change is exactly zero gets a present `day_pct` of 0 (lines 264-268 test
only `change is not None`, not non-zeroness), where the claim requires it
to be absent. -/
theorem day_pct_zero_change_counterexample :
    (resolveQuote fmZeroChg none tW "8888").change = some 0 ∧
    (resolveQuote fmZeroChg none tW "8888").close = some 100 ∧
    Item.dayPctF (processHolding fmZeroChg none tW ⟨"8888", 1, 50⟩) = some 0 := by
  have hf : fetch_twse_latest fmZeroChg "8888" tW = some ⟨none, rowZC, none⟩ := by
    simp [fetch_twse_latest, fmZeroChg, usableRows, rowZC, tW, dW, Date.le, pickLatest]
  have hr : resolveQuote fmZeroChg none tW "8888"
      = ⟨some Source.TWSE, none, some 100, some 0, some dW, false⟩ := by
    simp only [resolveQuote, hf, rowZC]
  refine ⟨by rw [hr], by rw [hr], ?_⟩
  simp only [processHolding, hr, Item.dayPctF]
  norm_num

/-- C4 as amended: `day_pct` is present exactly when the reported change is
present and the implied prior close `close − change` is strictly positive
(a zero change with a positive close yields a present `day_pct` of 0);
when present it equals `change / (close − change) × 100`, and the guard
makes the computation total — no division by a non-positive prior close is
performed. -/
theorem day_pct_guard
    (fm : String → Date → Option MonthData) (tp : Option TpexData)
    (target : Date) (h : HRow) (c : ℚ)
    (hc : (resolveQuote fm tp target h.code).close = some c) :
    (Item.dayPctF (processHolding fm tp target h) ≠ none ↔
      ∃ ch, (resolveQuote fm tp target h.code).change = some ch ∧ c - ch > 0) ∧
    ∀ ch, (resolveQuote fm tp target h.code).change = some ch → c - ch > 0 →
      Item.dayPctF (processHolding fm tp target h) = some (ch / (c - ch) * 100) := by
  constructor
  · simp only [processHolding, hc]
    cases hch : (resolveQuote fm tp target h.code).change with
    | none => simp [Item.dayPctF]
    | some ch =>
        by_cases hpos : c - ch > 0
        · simp [Item.dayPctF, hpos]
          linarith
        · simp [Item.dayPctF, hpos]
          linarith
  · intro ch hch hpos
    simp only [processHolding, hc, hch, Item.dayPctF]
    rw [if_pos hpos]

/-- C4 witness: the 2330 fixture (close 600, change 5) has a positive
implied prior close of 595, so `day_pct` is present and equals
`5/595 × 100`. -/
theorem day_pct_guard_witness :
    Item.dayPctF (processHolding fmPrim (some tpW) tW ⟨"2330", 2, 500⟩) ≠ none ∧
    Item.dayPctF (processHolding fmPrim (some tpW) tW ⟨"2330", 2, 500⟩)
      = some (5 / (600 - 5) * 100) := by
  have hc : (resolveQuote fmPrim (some tpW) tW "2330").close = some 600 := by
    simp only [resolveQuote, fmPrim_fetch, rowW]
  have hch : (resolveQuote fmPrim (some tpW) tW "2330").change = some 5 := by
    simp only [resolveQuote, fmPrim_fetch, rowW]
  have h := day_pct_guard fmPrim (some tpW) tW ⟨"2330", 2, 500⟩ 600 hc
  exact ⟨h.1.mpr ⟨5, hch, by norm_num⟩, h.2 5 hch (by norm_num)⟩

/-- C8 counterexample: a snapshot header lacking the close label does not
make the close absent — the `-1` default reads the row's last column, here
a parseable price, so a present value is returned. -/
theorem tpex_missing_label_counterexample :
    hmapGet ["代號", "名稱"] "收盤" = -1 ∧
    ((parse_tpex_price ["2330", "TestCo", "123.5"] ["代號", "名稱"]).1).isSome = true ∧
    (parse_tpex_price ["2330", "TestCo", "123.5"] ["代號", "名稱"]).1
      = parse_float "123.5" := by
  refine ⟨by decide, by decide, rfl⟩

/-- A label with a negative `hmap.get` default is absent, so it is `-1`. -/
theorem hmapGet_neg (header : List String) (label : String)
    (h : hmapGet header label < 0) : hmapGet header label = -1 := by
  revert h
  unfold hmapGet
  cases header.enum.foldl
      (fun acc p => if p.2 = label then some p.1 else acc) (none : Option Nat) with
  | none => intro _; rfl
  | some i =>
      intro h
      exact absurd (show (i : Int) < 0 from h) (by omega)

/-- C8 as amended: the lookup is a linear scan for a row whose code column
equals the symbol exactly, returning `None` exactly when no row's code
column matches; a missing name label yields an absent name; but a missing
code/close/change label falls back to index `-1`, i.e. the row's last
column is compared or parsed instead of the value being absent. -/
theorem tpex_lookup_spec (d : TpexData) (code : String) :
    (∀ r, get_tpex_row (some d) code = some r →
      r ∈ d.rows ∧ pyIdx r (hmapGet d.header "代號") = some code) ∧
    (get_tpex_row (some d) code = none ↔
      ∀ r ∈ d.rows, ¬pyIdx r (hmapGet d.header "代號") = some code) ∧
    (∀ row, hmapGet d.header "名稱" < 0 → (parse_tpex_price row d.header).2.2 = none) ∧
    (∀ row, hmapGet d.header "收盤" < 0 →
      (parse_tpex_price row d.header).1 = parseAt row (-1)) ∧
    (∀ row, hmapGet d.header "漲跌" < 0 →
      (parse_tpex_price row d.header).2.1 = parseAt row (-1)) := by
  refine ⟨?_, ?_, ?_, ?_, ?_⟩
  · intro r hr
    unfold get_tpex_row at hr
    refine ⟨List.mem_of_find?_eq_some hr, ?_⟩
    have := List.find?_some hr
    simpa using this
  · unfold get_tpex_row
    simp [List.find?_eq_none]
  · intro row hneg
    simp only [parse_tpex_price]
    rw [if_neg (not_le.mpr hneg)]
  · intro row hneg
    simp only [parse_tpex_price, hmapGet_neg d.header "收盤" hneg]
  · intro row hneg
    simp only [parse_tpex_price, hmapGet_neg d.header "漲跌" hneg]

/-- C8 witness: in the fixture snapshot, symbol 4444 is found by exact
match on the code column, and the found row is a row of the snapshot. -/
theorem tpex_lookup_spec_witness :
    get_tpex_row (some tpW) "4444" = some ["4444", "OTCCo", "50", "1.5"] ∧
    ["4444", "OTCCo", "50", "1.5"] ∈ tpW.rows ∧
    pyIdx ["4444", "OTCCo", "50", "1.5"] (hmapGet tpW.header "代號") = some "4444" := by
  have hrow : get_tpex_row (some tpW) "4444" = some ["4444", "OTCCo", "50", "1.5"] := by
    decide
  have h := (tpex_lookup_spec tpW "4444").1 ["4444", "OTCCo", "50", "1.5"] hrow
  exact ⟨hrow, h.1, h.2⟩
